import Mathlib

/-!
Verification of the Sonatina IR core against its specification.

The definitions below are a shallow embedding of the Rust sources:
arena stores (`PrimaryMap`) become Lean lists indexed by position, hash
maps (`FxHashMap`) and insertion-ordered maps (`IndexMap`) become
association lists, ordered sets (`BTreeSet`) become sorted
duplicate-free lists, aborts become `Except.error`, and entity handles
(`CompoundType`, `FuncRef`, `GlobalVariable`, `BlockId`, `Insn`) become
natural numbers.
-/

namespace Sonatina

/-- Association-list lookup, used to model the `FxHashMap` / `IndexMap`
key-value containers of the source. -/
def alookup {α β : Type} [DecidableEq α] : List (α × β) → α → Option β
  | [], _ => none
  | (k, v) :: rest, a => if k = a then some v else alookup rest a

/-! ## Types (`crates/ir/src/types.rs`)

`Type` is renamed `Ty` because `Type` is reserved in Lean.  A
`CompoundType` handle is the index of the data in the store's
`compounds` arena. -/

/-- The Sonatina IR `Type` enum: integer primitives, a compound-type
handle, and void. -/
inductive Ty where
  | i1 | i8 | i16 | i32 | i64 | i128 | i256
  | compound (handle : Nat)
  | void
deriving DecidableEq

/-- `StructData`: a named, possibly packed struct with field types. -/
structure StructData where
  name : String
  fields : List Ty
  packed : Bool
deriving DecidableEq

/-- `CompoundTypeData`: array, pointer or struct data. -/
inductive CompoundTypeData where
  | array (elem : Ty) (len : Nat)
  | ptr (t : Ty)
  | struct (data : StructData)
deriving DecidableEq

/-- `TypeStore`: forward arena of compound data, reverse map for
interning, and the name-indexed struct map (`IndexMap`, so modelled as
an append-ordered association list). -/
structure TypeStore where
  compounds : List CompoundTypeData
  rev_types : List (CompoundTypeData × Nat)
  struct_types : List (String × Nat)

/-- The `Default` (empty) type store. -/
def emptyTypeStore : TypeStore := ⟨[], [], []⟩

/-- `TypeStore::make_compound`: return the interned handle on a reverse-map
hit; otherwise push the data and record both directions. -/
def TypeStore.make_compound (s : TypeStore) (data : CompoundTypeData) : Nat × TypeStore :=
  match alookup s.rev_types data with
  | some compound => (compound, s)
  | none =>
    let compound := s.compounds.length
    (compound, { s with compounds := s.compounds ++ [data],
                        rev_types := (data, compound) :: s.rev_types })

/-- `TypeStore::make_ptr`. -/
def TypeStore.make_ptr (s : TypeStore) (ty : Ty) : Ty × TypeStore :=
  let r := s.make_compound (CompoundTypeData.ptr ty)
  (Ty.compound r.1, r.2)

/-- `TypeStore::make_array`. -/
def TypeStore.make_array (s : TypeStore) (elem : Ty) (len : Nat) : Ty × TypeStore :=
  let r := s.make_compound (CompoundTypeData.array elem len)
  (Ty.compound r.1, r.2)

/-- `TypeStore::make_struct`.  The `debug_assert` guarding duplicate
struct names is modelled as an abort (`Except.error`); note that it runs
after `make_compound` and before the insertion into `struct_types`. -/
def TypeStore.make_struct (s : TypeStore) (name : String) (fields : List Ty) (packed : Bool) :
    Except String (Ty × TypeStore) :=
  let r := s.make_compound (CompoundTypeData.struct ⟨name, fields, packed⟩)
  if (alookup r.2.struct_types name).isSome then
    Except.error ("struct " ++ name ++ " is already defined")
  else
    Except.ok (Ty.compound r.1, { r.2 with struct_types := r.2.struct_types ++ [(name, r.1)] })

/-- `TypeStore::resolve_compound`; the source indexes the arena (and
would abort out of bounds), modelled with `Option`. -/
def TypeStore.resolve_compound (s : TypeStore) (compound : Nat) : Option CompoundTypeData :=
  s.compounds[compound]?

/-- `TypeStore::struct_type_by_name`. -/
def TypeStore.struct_type_by_name (s : TypeStore) (name : String) : Option Ty :=
  (alookup s.struct_types name).map Ty.compound

/-- The reverse map is consistent with the forward arena: every interned
binding resolves to its own data.  It holds for every store reachable
through the public constructors (see `wf_rev_make_compound`), in
particular for the empty store. -/
def TypeStore.wf_rev (s : TypeStore) : Prop :=
  ∀ d c, alookup s.rev_types d = some c → s.compounds[c]? = some d

/-- `Type::is_integral`. -/
def Ty.is_integral : Ty → Bool
  | .i1 | .i8 | .i16 | .i32 | .i64 | .i128 | .i256 => true
  | _ => false

/-- Bit width of the integer primitives (0 on non-integers, where the
claims never use it). -/
def Ty.bitwidth : Ty → Nat
  | .i1 => 1
  | .i8 => 8
  | .i16 => 16
  | .i32 => 32
  | .i64 => 64
  | .i128 => 128
  | .i256 => 256
  | _ => 0

/-- `Ty` is a compound type or void (the non-integer cases of the
source enum). -/
def Ty.isCompoundOrVoid : Ty → Bool
  | .compound _ => true
  | .void => true
  | _ => false

/-- The `PartialOrd for Type` implementation (`fn partial_cmp` in the
source), transcribed arm by arm.  The source's final `unreachable` arm
is modelled as `none`; it is indeed unreachable after the integral
checks. -/
def Ty.ord_cmp (a b : Ty) : Option Ordering :=
  if a = b then some Ordering.eq
  else if !a.is_integral || !b.is_integral then none
  else match a, b with
    | .i1, _ => some Ordering.lt
    | .i8, .i1 => some Ordering.gt
    | .i8, _ => some Ordering.lt
    | .i16, .i1 => some Ordering.gt
    | .i16, .i8 => some Ordering.gt
    | .i16, _ => some Ordering.lt
    | .i32, .i1 => some Ordering.gt
    | .i32, .i8 => some Ordering.gt
    | .i32, .i16 => some Ordering.gt
    | .i32, _ => some Ordering.lt
    | .i64, .i128 => some Ordering.lt
    | .i64, .i256 => some Ordering.lt
    | .i64, _ => some Ordering.gt
    | .i128, .i256 => some Ordering.lt
    | .i128, _ => some Ordering.gt
    | .i256, _ => some Ordering.gt
    | _, _ => none

/-- The store built by `make_struct "Pair" [i32, i64] false` on the
empty store; used as a concrete input below. -/
def pairData : CompoundTypeData := CompoundTypeData.struct ⟨"Pair", [Ty.i32, Ty.i64], false⟩

def tsPair : TypeStore := ⟨[pairData], [(pairData, 0)], [("Pair", 0)]⟩

/-! ## Global variables (`crates/ir/src/global_variable.rs`) -/

/-- Modelled from the spec: `Linkage` (glossary entry
`Public | Private | External`); its definition is not among the provided
source files. -/
inductive Linkage where
  | pub
  | priv
  | ext

/-- Modelled from the spec: immediates are integer constants; the
concrete `Immediate` definition is not among the provided source files. -/
abbrev Immediate := Int

/-- `ConstantValue`: immediate, array or struct of constants. -/
inductive ConstantValue where
  | immediate (v : Immediate)
  | array (vs : List ConstantValue)
  | struct (vs : List ConstantValue)

/-- `GlobalVariableData`. -/
structure GlobalVariableData where
  symbol : String
  ty : Ty
  linkage : Linkage
  is_const : Bool
  data : Option ConstantValue

/-- `GlobalVariableStore`: the data arena (`PrimaryMap`) and the
symbol map (`FxHashMap`). -/
structure GlobalVariableStore where
  gv_data : List GlobalVariableData
  symbols : List (String × Nat)

/-- The `Default` (empty) global-variable store. -/
def emptyGvStore : GlobalVariableStore := ⟨[], []⟩

/-- `GlobalVariableStore::make_gv`: abort on an occupied symbol entry
(before any mutation), otherwise push the data and record the symbol. -/
def GlobalVariableStore.make_gv (s : GlobalVariableStore) (d : GlobalVariableData) :
    Except String (Nat × GlobalVariableStore) :=
  match alookup s.symbols d.symbol with
  | some _ => Except.error ("duplicate global symbol " ++ d.symbol)
  | none =>
    let gv := s.gv_data.length
    Except.ok (gv, ⟨s.gv_data ++ [d], (d.symbol, gv) :: s.symbols⟩)

/-- `GlobalVariableStore::gv_by_symbol`. -/
def GlobalVariableStore.gv_by_symbol (s : GlobalVariableStore) (symbol : String) : Option Nat :=
  alookup s.symbols symbol

/-- Concrete global data used as inputs below (mirroring the source's
`display_gv` test values). -/
def gvFoo : GlobalVariableData :=
  ⟨"foo", Ty.i32, Linkage.pub, true, some (ConstantValue.immediate 1618)⟩

def gvFoo2 : GlobalVariableData := ⟨"foo", Ty.i64, Linkage.priv, false, none⟩

def gvStore1 : GlobalVariableStore := ⟨[gvFoo], [("foo", 0)]⟩

/-! ## Module builder (`crates/codegen/src/ir/builder/module_builder.rs`)

The `TargetIsa` field is omitted: its definition is not among the
provided source files and no modelled operation reads it. -/

/-- Function signature.  The source snapshot is divergent: the
`Signature` in `function.rs` has only `args`/`rets`, while
`module_builder.rs` calls `sig.name()`; the spec gives
`{name, args, rets, linkage}`, which is modelled here. -/
structure Signature where
  name : String
  args : List Ty
  rets : List Ty
  linkage : Linkage

/-- The function payload stored by the builder; only the signature is
relevant to the modelled operations (`Function::new(sig)` in the
builder). -/
structure IrFunction where
  sig : Signature

/-- `ModuleBuilder`: function arena plus the declared-names map
(commented in the source as "Map function name -> FuncRef to avoid
duplicated declaration"). -/
structure ModuleBuilder where
  funcs : List IrFunction
  declared_funcs : List (String × Nat)

/-- `ModuleBuilder::new`. -/
def ModuleBuilder.new : ModuleBuilder := ⟨[], []⟩

/-- `ModuleBuilder::declare_function`, transcribed faithfully: it aborts
when `declared_funcs` contains the name, and otherwise pushes a new
function — without ever inserting into `declared_funcs`. -/
def ModuleBuilder.declare_function (m : ModuleBuilder) (sig : Signature) :
    Except String (Nat × ModuleBuilder) :=
  if (alookup m.declared_funcs sig.name).isSome then
    Except.error (sig.name ++ " is already declared.")
  else
    Except.ok (m.funcs.length, { m with funcs := m.funcs ++ [⟨sig⟩] })

/-- `ModuleBuilder::get_func_ref`. -/
def ModuleBuilder.get_func_ref (m : ModuleBuilder) (name : String) : Option Nat :=
  alookup m.declared_funcs name

def sigFoo : Signature := ⟨"foo", [Ty.i32], [Ty.i32], Linkage.pub⟩

/-- The builder state after one successful `declare_function sigFoo`. -/
def mbFoo : ModuleBuilder := ⟨[⟨sigFoo⟩], []⟩

/-! ## Control-flow graph (`crates/ir/src/cfg.rs`) -/

/-- `BlockNode`: ordered predecessor and successor sets (`BTreeSet`),
modelled as sorted duplicate-free lists. -/
structure BlockNode where
  preds : List Nat
  succs : List Nat
deriving DecidableEq

/-- The `Default` block node. -/
def emptyNode : BlockNode := ⟨[], []⟩

/-- `ControlFlowGraph`.  `blocks` is a `SecondaryMap`: a partial map
with `emptyNode` as the default of absent keys. -/
structure ControlFlowGraph where
  entry : Option Nat
  blocks : List (Nat × BlockNode)
  exits : List Nat
deriving DecidableEq

/-- `ControlFlowGraph::new` (the `Default` value). -/
def ControlFlowGraph.new : ControlFlowGraph := ⟨none, [], []⟩

/-- Read a block node from the `SecondaryMap` (default for absent
keys). -/
def ControlFlowGraph.getNode (c : ControlFlowGraph) (b : Nat) : BlockNode :=
  (alookup c.blocks b).getD emptyNode

/-- Write a block node into the `SecondaryMap`. -/
def setNode : List (Nat × BlockNode) → Nat → BlockNode → List (Nat × BlockNode)
  | [], k, n => [(k, n)]
  | (k', n') :: rest, k, n =>
    if k' = k then (k, n) :: rest else (k', n') :: setNode rest k n

/-- `BTreeSet::insert`: ordered insertion without duplicates. -/
def btInsert (x : Nat) : List Nat → List Nat
  | [] => [x]
  | y :: rest =>
    if x < y then x :: y :: rest
    else if x = y then y :: rest
    else y :: btInsert x rest

/-- `ControlFlowGraph::add_edge`: push the predecessor into `to`'s
node, then the successor into `from`'s node. -/
def ControlFlowGraph.add_edge (c : ControlFlowGraph) (f t : Nat) : ControlFlowGraph :=
  let nt := c.getNode t
  let c1 : ControlFlowGraph := { c with blocks := setNode c.blocks t { nt with preds := btInsert f nt.preds } }
  let nf := c1.getNode f
  { c1 with blocks := setNode c1.blocks f { nf with succs := btInsert t nf.succs } }

/-- `ControlFlowGraph::reverse_edges`: swap `preds` and `succs` of
every stored node and install the new entry and exits. -/
def ControlFlowGraph.reverse_edges (c : ControlFlowGraph) (new_entry : Nat)
    (new_exits : List Nat) : ControlFlowGraph :=
  { entry := some new_entry,
    blocks := c.blocks.map (fun p => (p.1, ⟨p.2.succs, p.2.preds⟩)),
    exits := new_exits }

/-- `ControlFlowGraph::clear`. -/
def ControlFlowGraph.clear (_ : ControlFlowGraph) : ControlFlowGraph := ⟨none, [], []⟩

/-- Modelled from the spec: the view of a `Function` used by
`ControlFlowGraph::compute`.  The `Layout` and `DataFlowGraph` sources
are not among the provided files; their interface (`iter_block`,
`last_insn_of`, `insn_block`, `is_return`, `analyze_branch` destination
enumeration) is modelled from the spec, sections 4.E/4.F/4.I. -/
structure FuncView where
  layoutBlocks : List Nat
  lastInsn : Nat → Option Nat
  insnBlock : Nat → Nat
  isReturn : Nat → Bool
  branchDests : Nat → List Nat

/-- Modelled from the spec: `Layout::entry_block` is the first block in
layout order. -/
def FuncView.entry_block (f : FuncView) : Option Nat :=
  f.layoutBlocks.head?

/-- `ControlFlowGraph::analyze_insn`: record an exit for a return, then
add an edge per branch destination. -/
def analyze_insn (c : ControlFlowGraph) (f : FuncView) (insn : Nat) : ControlFlowGraph :=
  let c := if f.isReturn insn then { c with exits := c.exits ++ [f.insnBlock insn] } else c
  (f.branchDests insn).foldl (fun acc dest => acc.add_edge (f.insnBlock insn) dest) c

/-- `ControlFlowGraph::compute`: clear, set the entry, then analyze the
last instruction of every layout block. -/
def ControlFlowGraph.compute (c : ControlFlowGraph) (f : FuncView) : ControlFlowGraph :=
  let c0 := c.clear
  let c1 : ControlFlowGraph := { c0 with entry := f.entry_block }
  f.layoutBlocks.foldl
    (fun acc block =>
      match f.lastInsn block with
      | some insn => analyze_insn acc f insn
      | none => acc)
    c1

/-- A concrete two-block function: block 0 branches to block 1 and
block 1 returns. -/
def fEx : FuncView :=
  ⟨[0, 1],
   fun b => if b = 0 then some 10 else if b = 1 then some 11 else none,
   fun i => if i = 10 then 0 else 1,
   fun i => i == 11,
   fun i => if i = 10 then [1] else []⟩

/-! ## Post-order traversal (`CfgPostOrder`) -/

/-- Successor list of a block. -/
def succList (c : ControlFlowGraph) (b : Nat) : List Nat :=
  (c.getNode b).succs

/-- The iterator state: `node_state` is a `SecondaryMap` with default 0
(unvisited; 1 = visited, 2 = finished) plus the explicit stack (head =
top). -/
structure PoState where
  nodeState : Nat → Nat
  stack : List Nat

/-- Point update of a state map. -/
def updF (f : Nat → Nat) (a v : Nat) : Nat → Nat :=
  fun x => if x = a then v else f x

/-- The successor-pushing loop of `CfgPostOrder::next`: push every
still-unvisited successor on top of the stack, in iteration order. -/
def pushSuccs (ns : Nat → Nat) (succs : List Nat) (st : List Nat) : List Nat :=
  succs.foldl (fun acc v => if ns v = 0 then v :: acc else acc) st

/-- One iteration of the `while` loop in `CfgPostOrder::next`: `none`
means the stack is empty (iteration over); `some (o, s)` performs one
loop body, yielding `o`. -/
def poStep (c : ControlFlowGraph) (s : PoState) : Option (Option Nat × PoState) :=
  match s.stack with
  | [] => none
  | block :: rest =>
    if s.nodeState block = 0 then
      let ns := updF s.nodeState block 1
      some (none, ⟨ns, pushSuccs ns (succList c block) (block :: rest)⟩)
    else if s.nodeState block = 2 then
      some (none, ⟨s.nodeState, rest⟩)
    else
      some (some block, ⟨updF s.nodeState block 2, rest⟩)

/-- Drive the iterator, collecting the yielded blocks and the final
state.  The fuel bound `poFuel` below always suffices (`po_master`). -/
def poRunAux (c : ControlFlowGraph) : Nat → PoState → List Nat × PoState
  | 0, s => ([], s)
  | fuel + 1, s =>
    match poStep c s with
    | none => ([], s)
    | some (none, s1) => poRunAux c fuel s1
    | some (some b, s1) =>
      let r := poRunAux c fuel s1
      (b :: r.1, r.2)

/-- All successors stored anywhere in the graph. -/
def allSuccsList (c : ControlFlowGraph) : List Nat :=
  c.blocks.foldr (fun p acc => p.2.succs ++ acc) []

/-- A finite list containing the entry and every block that can ever be
pushed on the traversal stack. -/
def univList (c : ControlFlowGraph) : List Nat :=
  (match c.entry with | some e => [e] | none => []) ++ allSuccsList c

/-- Work contributed by one unvisited block: its own processing plus
its potential pushes. -/
def weight (c : ControlFlowGraph) (b : Nat) : Nat :=
  1 + (succList c b).length

def listWeight (c : ControlFlowGraph) (l : List Nat) : Nat :=
  (l.map (weight c)).sum

/-- Strictly decreasing measure of the traversal. -/
def mu (c : ControlFlowGraph) (s : PoState) : Nat :=
  s.stack.length + listWeight c ((univList c).filter (fun b => s.nodeState b == 0))

/-- Fuel that dominates `mu` of the initial state. -/
def poFuel (c : ControlFlowGraph) : Nat :=
  1 + listWeight c (univList c)

/-- `CfgPostOrder::new`: stack holds the entry if present, all states
unvisited. -/
def poInit (c : ControlFlowGraph) : PoState :=
  ⟨fun _ => 0, match c.entry with | some e => [e] | none => []⟩

/-- `ControlFlowGraph::post_order`, driven to completion. -/
def ControlFlowGraph.post_order (c : ControlFlowGraph) : List Nat :=
  (poRunAux c (poFuel c) (poInit c)).1

/-- Reachability along successor edges. -/
def Reach (c : ControlFlowGraph) : Nat → Nat → Prop :=
  Relation.ReflTransGen (fun x y => y ∈ succList c x)

/-- `a` is yielded strictly before `b` in the output list `l`. -/
def yieldedBefore (l : List Nat) (a b : Nat) : Prop :=
  a ∈ l ∧ b ∈ l ∧ l.indexOf a < l.indexOf b

/-- Invariant of the post-order iterator state: `ns` is the node-state
map, `stk` the stack (head = top), `e` the entry block. -/
structure PoInv (c : ControlFlowGraph) (e : Nat) (ns : Nat → Nat) (stk : List Nat) : Prop where
  stackUniv : ∀ b ∈ stk, b ∈ univList c
  bound : ∀ b, ns b ≤ 2
  visStack : ∀ b, ns b = 1 → b ∈ stk
  finSuccs : ∀ b, ns b = 2 → ∀ v ∈ succList c b, ns v ≠ 0
  stackSuccs : ∀ pre b post, stk = pre ++ b :: post → ns b ≠ 0 →
    ∀ v ∈ succList c b, ns v ≠ 0 ∨ v ∈ pre
  stackReach : ∀ pre b post, stk = pre ++ b :: post → ns b = 1 → b ∉ pre →
    ∀ a ∈ pre, Reach c b a
  entReach : ∀ b ∈ stk, Reach c e b
  visReach : ∀ b, ns b ≠ 0 → Reach c e b

/-- The full conclusion of the run lemma `po_master`: the traversal
from state `(ns, stk)` empties the stack, preserves the invariant,
only raises node states, finishes every stacked block, yields exactly
the newly finished blocks without duplicates, and respects the
post-order property up to back edges. -/
def MasterOut (c : ControlFlowGraph) (e : Nat) (ns : Nat → Nat) (stk : List Nat)
    (out : List Nat) (t : PoState) : Prop :=
  (t.stack = [] ∧ PoInv c e t.nodeState t.stack)
  ∧ (∀ b, ns b ≤ t.nodeState b)
  ∧ (∀ b ∈ stk, t.nodeState b = 2)
  ∧ (∀ b, b ∈ out ↔ (t.nodeState b = 2 ∧ ns b ≠ 2))
  ∧ out.Nodup
  ∧ (∀ u v, v ∈ succList c u → u ∈ out → v ∈ out →
      out.indexOf u < out.indexOf v → Reach c v u)

/-- A diamond CFG `0 → {1, 2} → 3` with entry 0. -/
def cfgD : ControlFlowGraph :=
  (((((⟨some 0, [], [3]⟩ : ControlFlowGraph).add_edge 0 1).add_edge 0 2).add_edge 1 3).add_edge 2 3)

/-- A two-block cycle `0 → 1 → 0` with entry 0. -/
def cfgCyc : ControlFlowGraph :=
  ((⟨some 0, [], []⟩ : ControlFlowGraph).add_edge 0 1).add_edge 1 0

/-! # Theorems -/

/-! ## Association lists -/

theorem alookup_cons_self {α β : Type} [DecidableEq α] (a : α) (v : β) (l : List (α × β)) :
    alookup ((a, v) :: l) a = some v := by
  simp [alookup]

theorem alookup_cons_ne {α β : Type} [DecidableEq α] {k a : α} (v : β) (l : List (α × β))
    (h : k ≠ a) : alookup ((k, v) :: l) a = alookup l a := by
  simp [alookup, h]

theorem alookup_append_left {α β : Type} [DecidableEq α] {l1 : List (α × β)} {a : α} {v : β}
    (l2 : List (α × β)) (h : alookup l1 a = some v) : alookup (l1 ++ l2) a = some v := by
  induction l1 with
  | nil => simp [alookup] at h
  | cons p rest ih =>
    obtain ⟨k, w⟩ := p
    by_cases hk : k = a
    · subst hk
      simp [alookup] at h ⊢
      exact h
    · simp [alookup, hk] at h ⊢
      exact ih h

theorem alookup_append_right {α β : Type} [DecidableEq α] {l1 : List (α × β)} {a : α}
    (l2 : List (α × β)) (h : alookup l1 a = none) : alookup (l1 ++ l2) a = alookup l2 a := by
  induction l1 with
  | nil => rfl
  | cons p rest ih =>
    obtain ⟨k, w⟩ := p
    by_cases hk : k = a
    · subst hk
      simp [alookup] at h
    · simp [alookup, hk] at h ⊢
      exact ih h

theorem alookup_mem {α β : Type} [DecidableEq α] {l : List (α × β)} {a : α} {v : β}
    (h : alookup l a = some v) : (a, v) ∈ l := by
  induction l with
  | nil => simp [alookup] at h
  | cons p rest ih =>
    obtain ⟨k, w⟩ := p
    by_cases hk : k = a
    · subst hk
      simp [alookup] at h
      subst h
      exact List.mem_cons_self _ _
    · simp [alookup, hk] at h
      exact List.mem_cons_of_mem _ (ih h)

/-! ## Interning lemmas for `make_compound` -/

theorem make_compound_lookup_self (s : TypeStore) (d : CompoundTypeData) :
    alookup (s.make_compound d).2.rev_types d = some (s.make_compound d).1 := by
  unfold TypeStore.make_compound
  cases h : alookup s.rev_types d with
  | some c => simp [h]
  | none => simp [h, alookup_cons_self]

theorem make_compound_lookup_mono (s : TypeStore) (e : CompoundTypeData)
    {d : CompoundTypeData} {c : Nat} (h : alookup s.rev_types d = some c) :
    alookup (s.make_compound e).2.rev_types d = some c := by
  unfold TypeStore.make_compound
  cases he : alookup s.rev_types e with
  | some c' => simpa [he] using h
  | none =>
    have hne : e ≠ d := by
      intro hed
      rw [hed] at he
      rw [he] at h
      exact Option.noConfusion h
    simpa [he, alookup_cons_ne _ _ hne] using h

theorem make_compound_fold_mono (ops : List CompoundTypeData) (s : TypeStore)
    {d : CompoundTypeData} {c : Nat} (h : alookup s.rev_types d = some c) :
    alookup (ops.foldl (fun t e => (t.make_compound e).2) s).rev_types d = some c := by
  induction ops generalizing s with
  | nil => exact h
  | cons e rest ih => exact ih _ (make_compound_lookup_mono s e h)

theorem make_compound_of_lookup {s : TypeStore} {d : CompoundTypeData} {c : Nat}
    (h : alookup s.rev_types d = some c) : s.make_compound d = (c, s) := by
  unfold TypeStore.make_compound
  simp [h]

theorem make_compound_struct_types (s : TypeStore) (d : CompoundTypeData) :
    (s.make_compound d).2.struct_types = s.struct_types := by
  unfold TypeStore.make_compound
  cases h : alookup s.rev_types d <;> simp [h]

theorem wf_rev_empty : emptyTypeStore.wf_rev := by
  intro d c h
  simp [emptyTypeStore, alookup] at h

theorem wf_rev_make_compound {s : TypeStore} (h : s.wf_rev) (d : CompoundTypeData) :
    (s.make_compound d).2.wf_rev := by
  unfold TypeStore.make_compound
  cases hl : alookup s.rev_types d with
  | some c => simpa [hl] using h
  | none =>
    simp only [hl]
    intro d' c' h'
    by_cases hd : d = d'
    · subst hd
      rw [alookup_cons_self] at h'
      cases h'
      simp
    · rw [alookup_cons_ne _ _ hd] at h'
      have hres := h d' c' h'
      have hlt : c' < s.compounds.length := (List.getElem?_eq_some.mp hres).1
      rw [List.getElem?_append, if_pos hlt]
      exact hres

/-- C1: type interning.  Registering compound data `d` through
`make_compound` and registering structurally equal data again — after
any interleaved registrations (`make_ptr`/`make_array`/`make_struct`
all funnel through `make_compound`) — returns the same handle;
in particular `make_array i32 3` twice on the same store returns the
same `CompoundType` handle.  Structural equality of `CompoundTypeData`
is definitional equality of the embedded inductive. -/
theorem c1_type_interning :
    (∀ (s : TypeStore) (d : CompoundTypeData) (ops : List CompoundTypeData),
       (TypeStore.make_compound
          (ops.foldl (fun t e => (t.make_compound e).2) (s.make_compound d).2) d).1
         = (s.make_compound d).1)
    ∧ (∀ (s : TypeStore) (elem : Ty) (len : Nat),
       ((s.make_array elem len).2.make_array elem len).1 = (s.make_array elem len).1) := by
  constructor
  · intro s d ops
    have h1 := make_compound_lookup_self s d
    have h2 := make_compound_fold_mono ops _ h1
    rw [make_compound_of_lookup h2]
  · intro s elem len
    unfold TypeStore.make_array
    have h1 := make_compound_lookup_self s (CompoundTypeData.array elem len)
    rw [make_compound_of_lookup h1]

/-- C10: round trip.  On a store whose reverse map is consistent with
the arena (`wf_rev`, which holds for every store built through the
public constructors), `resolve_compound (make_compound d) = d`, and
`make_compound` never changes the data bound to a previously issued
handle. -/
theorem c10_resolve_roundtrip (s : TypeStore) (d : CompoundTypeData) (h : s.wf_rev) :
    (s.make_compound d).2.resolve_compound (s.make_compound d).1 = some d
    ∧ ∀ (c : Nat) (x : CompoundTypeData),
        s.compounds[c]? = some x → (s.make_compound d).2.compounds[c]? = some x := by
  unfold TypeStore.resolve_compound TypeStore.make_compound
  cases hl : alookup s.rev_types d with
  | some c =>
    refine ⟨h d c hl, ?_⟩
    intro c' x hx
    exact hx
  | none =>
    constructor
    · simp
    · intro c x hx
      have hlt : c < s.compounds.length := (List.getElem?_eq_some.mp hx).1
      simp only []
      rw [List.getElem?_append, if_pos hlt]
      exact hx

theorem c10_resolve_roundtrip_witness :
    emptyTypeStore.wf_rev
    ∧ ((emptyTypeStore.make_compound (CompoundTypeData.ptr Ty.i32)).2.resolve_compound
         (emptyTypeStore.make_compound (CompoundTypeData.ptr Ty.i32)).1
        = some (CompoundTypeData.ptr Ty.i32)
      ∧ ∀ (c : Nat) (x : CompoundTypeData), emptyTypeStore.compounds[c]? = some x →
          (emptyTypeStore.make_compound (CompoundTypeData.ptr Ty.i32)).2.compounds[c]? = some x) :=
  ⟨wf_rev_empty, c10_resolve_roundtrip emptyTypeStore (CompoundTypeData.ptr Ty.i32) wf_rev_empty⟩

/-- C4: the partial order on `Type`.  `T1 < T2` (that is,
`partial_cmp = Less`) holds iff both are integer primitives with
`bitwidth T1 < bitwidth T2`; equal types compare `Equal`; and two
different types, either of which is compound or void, are
incomparable. -/
theorem c4_type_order : ∀ a b : Ty,
    (Ty.ord_cmp a b = some Ordering.lt ↔
       (a.is_integral = true ∧ b.is_integral = true ∧ a.bitwidth < b.bitwidth))
    ∧ (a = b → Ty.ord_cmp a b = some Ordering.eq)
    ∧ (a ≠ b → (a.isCompoundOrVoid = true ∨ b.isCompoundOrVoid = true) →
        Ty.ord_cmp a b = none) := by
  intro a b
  cases a <;> cases b <;>
    first
      | decide
      | simp [Ty.ord_cmp, Ty.is_integral, Ty.bitwidth, Ty.isCompoundOrVoid]

theorem c4_type_order_witness :
    Ty.ord_cmp Ty.i8 Ty.i32 = some Ordering.lt
    ∧ Ty.ord_cmp Ty.i32 (Ty.compound 0) = none :=
  ⟨(c4_type_order Ty.i8 Ty.i32).1.mpr (by decide),
   (c4_type_order Ty.i32 (Ty.compound 0)).2.2 (by decide) (Or.inr (by decide))⟩

/-- C7: duplicate struct names abort.  After a successful
`make_struct` with name `n`, any further `make_struct` with the same
name — whatever the fields and packed flag — aborts.  (The source's
`debug_assert` is modelled as the abort.) -/
theorem c7_struct_dup (s : TypeStore) (n : String) (f1 : List Ty) (p1 : Bool)
    (f2 : List Ty) (p2 : Bool) (t : Ty) (s1 : TypeStore)
    (h : s.make_struct n f1 p1 = Except.ok (t, s1)) :
    ∃ msg, s1.make_struct n f2 p2 = Except.error msg := by
  unfold TypeStore.make_struct at h ⊢
  set r := s.make_compound (CompoundTypeData.struct ⟨n, f1, p1⟩) with hr
  by_cases hl : (alookup r.2.struct_types n).isSome
  · rw [if_pos hl] at h
    exact Except.noConfusion h
  · rw [if_neg hl] at h
    cases h
    refine ⟨"struct " ++ n ++ " is already defined", ?_⟩
    rw [if_pos]
    rw [make_compound_struct_types]
    simp only []
    cases hcur : alookup (r.2.struct_types) n with
    | some v => exact (alookup_append_left _ hcur) ▸ rfl
    | none =>
      rw [alookup_append_right _ hcur]
      simp [alookup_cons_self]

theorem c7_struct_dup_witness :
    emptyTypeStore.make_struct "Pair" [Ty.i32, Ty.i64] false = Except.ok (Ty.compound 0, tsPair)
    ∧ ∃ msg, tsPair.make_struct "Pair" [Ty.i32, Ty.i64] false = Except.error msg :=
  ⟨rfl, c7_struct_dup emptyTypeStore "Pair" [Ty.i32, Ty.i64] false [Ty.i32, Ty.i64] false
     (Ty.compound 0) tsPair rfl⟩

/-- C9: duplicate global symbols abort.  After a successful `make_gv`
of data `d1`, a `make_gv` of any data with the same symbol aborts
before mutating anything, and the first registration stays retrievable
via `gv_by_symbol` (and resolves to `d1` in the arena). -/
theorem c9_gv_dup (s : GlobalVariableStore) (d1 d2 : GlobalVariableData) (r : Nat)
    (s1 : GlobalVariableStore) (hsym : d2.symbol = d1.symbol)
    (h : s.make_gv d1 = Except.ok (r, s1)) :
    (∃ msg, s1.make_gv d2 = Except.error msg)
    ∧ s1.gv_by_symbol d1.symbol = some r
    ∧ s1.gv_data[r]? = some d1 := by
  unfold GlobalVariableStore.make_gv at h ⊢
  cases hl : alookup s.symbols d1.symbol with
  | some v => simp [hl] at h
  | none =>
    rw [hl] at h
    simp only [Except.ok.injEq, Prod.mk.injEq] at h
    obtain ⟨hrv, hs1⟩ := h
    subst hrv
    subst hs1
    refine ⟨⟨"duplicate global symbol " ++ d2.symbol, ?_⟩, ?_, ?_⟩
    · rw [hsym]
      simp only [alookup_cons_self]
    · simp [GlobalVariableStore.gv_by_symbol, alookup_cons_self]
    · simp

theorem c9_gv_dup_witness :
    gvFoo2.symbol = gvFoo.symbol
    ∧ emptyGvStore.make_gv gvFoo = Except.ok (0, gvStore1)
    ∧ ((∃ msg, gvStore1.make_gv gvFoo2 = Except.error msg)
       ∧ gvStore1.gv_by_symbol gvFoo.symbol = some 0
       ∧ gvStore1.gv_data[0]? = some gvFoo) :=
  ⟨rfl, rfl, c9_gv_dup emptyGvStore gvFoo gvFoo2 0 gvStore1 rfl rfl⟩

/-- C5: the claim says a duplicate `declare_function` aborts on the
second call; the code does not.  `declare_function` never inserts into
`declared_funcs` (the map stays empty), so the duplicate check can
never fire: declaring `sigFoo` twice from a fresh builder returns two
distinct `FuncRef`s without aborting. -/
theorem c5_declare_function_no_abort :
    ModuleBuilder.new.declare_function sigFoo = Except.ok (0, mbFoo)
    ∧ mbFoo.declare_function sigFoo = Except.ok (1, ⟨[⟨sigFoo⟩, ⟨sigFoo⟩], []⟩) := by
  constructor <;> rfl

/-- C6: the claim says `get_func_ref` returns the handle of a declared
name; the code returns `none` even right after a successful
`declare_function` of that name, because `declared_funcs` is never
populated. -/
theorem c6_get_func_ref_none :
    ModuleBuilder.new.declare_function sigFoo = Except.ok (0, mbFoo)
    ∧ mbFoo.get_func_ref "foo" = none := by
  constructor <;> rfl

/-! ## CFG lemmas -/

theorem alookup_map_node (l : List (Nat × BlockNode)) (g : BlockNode → BlockNode) (a : Nat) :
    alookup (l.map (fun p => (p.1, g p.2))) a = (alookup l a).map g := by
  induction l with
  | nil => rfl
  | cons p rest ih =>
    obtain ⟨k, n⟩ := p
    by_cases hk : k = a
    · subst hk
      simp [alookup]
    · simp [alookup, hk, ih]

/-- C8: `reverse_edges` is an involution on the per-block edge sets:
reversing twice (with any entries/exit lists installed) restores every
block's predecessor and successor sets. -/
theorem c8_reverse_involution (c : ControlFlowGraph) (e1 : Nat) (x1 : List Nat)
    (e2 : Nat) (x2 : List Nat) (b : Nat) :
    (((c.reverse_edges e1 x1).reverse_edges e2 x2).getNode b).preds = (c.getNode b).preds
    ∧ (((c.reverse_edges e1 x1).reverse_edges e2 x2).getNode b).succs = (c.getNode b).succs := by
  unfold ControlFlowGraph.reverse_edges ControlFlowGraph.getNode
  simp only [List.map_map]
  have hswap : ∀ l : List (Nat × BlockNode),
      l.map ((fun p => (p.1, (⟨p.2.succs, p.2.preds⟩ : BlockNode))) ∘
        (fun p => (p.1, (⟨p.2.succs, p.2.preds⟩ : BlockNode)))) = l := by
    intro l
    induction l with
    | nil => rfl
    | cons p rest ih =>
      simp only [List.map_cons, ih]
      rfl
  rw [hswap]
  constructor <;> rfl

theorem alookup_setNode_self (bs : List (Nat × BlockNode)) (k : Nat) (n : BlockNode) :
    alookup (setNode bs k n) k = some n := by
  induction bs with
  | nil => simp [setNode, alookup]
  | cons p rest ih =>
    obtain ⟨k', n'⟩ := p
    by_cases hk : k' = k
    · subst hk
      simp [setNode, alookup]
    · simp [setNode, hk, alookup, ih]

theorem alookup_setNode_ne (bs : List (Nat × BlockNode)) {k a : Nat} (n : BlockNode)
    (h : k ≠ a) : alookup (setNode bs k n) a = alookup bs a := by
  induction bs with
  | nil => simp [setNode, alookup, h]
  | cons p rest ih =>
    obtain ⟨k', n'⟩ := p
    by_cases hk : k' = k
    · subst hk
      simp [setNode, alookup, h]
    · simp [setNode, hk, alookup, ih]

theorem mem_btInsert (x a : Nat) (l : List Nat) :
    a ∈ btInsert x l ↔ a = x ∨ a ∈ l := by
  induction l with
  | nil => simp [btInsert]
  | cons y rest ih =>
    by_cases h1 : x < y
    · simp [btInsert, h1]
    · by_cases h2 : x = y
      · subst h2
        simp [btInsert, h1]
      · simp only [btInsert, if_neg h1, if_neg h2, List.mem_cons, ih]
        tauto

theorem getNode_mk_set_self (e : Option Nat) (bs : List (Nat × BlockNode)) (x : List Nat)
    (k : Nat) (n : BlockNode) :
    (ControlFlowGraph.mk e (setNode bs k n) x).getNode k = n := by
  simp [ControlFlowGraph.getNode, alookup_setNode_self]

theorem getNode_mk_set_ne (e : Option Nat) (bs : List (Nat × BlockNode)) (x : List Nat)
    {k a : Nat} (n : BlockNode) (h : k ≠ a) :
    (ControlFlowGraph.mk e (setNode bs k n) x).getNode a
      = (ControlFlowGraph.mk e bs x).getNode a := by
  simp [ControlFlowGraph.getNode, alookup_setNode_ne _ _ h]

theorem add_edge_exits (c : ControlFlowGraph) (f t : Nat) : (c.add_edge f t).exits = c.exits :=
  rfl

theorem add_edge_entry (c : ControlFlowGraph) (f t : Nat) : (c.add_edge f t).entry = c.entry :=
  rfl

theorem getNode_add_edge_succs (c : ControlFlowGraph) (f t u : Nat) :
    ((c.add_edge f t).getNode u).succs =
      if u = f then btInsert t ((c.getNode u).succs) else (c.getNode u).succs := by
  unfold ControlFlowGraph.add_edge
  simp only []
  by_cases huf : u = f
  · subst huf
    rw [if_pos rfl, getNode_mk_set_self]
    by_cases hut : u = t
    · subst hut
      rw [getNode_mk_set_self]
    · rw [getNode_mk_set_ne _ _ _ _ (fun h => hut h.symm)]
  · rw [if_neg huf, getNode_mk_set_ne _ _ _ _ (fun h => huf h.symm)]
    by_cases hut : u = t
    · subst hut
      rw [getNode_mk_set_self]
    · rw [getNode_mk_set_ne _ _ _ _ (fun h => hut h.symm)]

theorem getNode_add_edge_preds (c : ControlFlowGraph) (f t u : Nat) :
    ((c.add_edge f t).getNode u).preds =
      if u = t then btInsert f ((c.getNode u).preds) else (c.getNode u).preds := by
  unfold ControlFlowGraph.add_edge
  simp only []
  by_cases huf : u = f
  · subst huf
    rw [getNode_mk_set_self]
    by_cases hut : u = t
    · subst hut
      rw [if_pos rfl, getNode_mk_set_self]
    · rw [if_neg hut, getNode_mk_set_ne _ _ _ _ (fun h => hut h.symm)]
  · rw [getNode_mk_set_ne _ _ _ _ (fun h => huf h.symm)]
    by_cases hut : u = t
    · subst hut
      rw [if_pos rfl, getNode_mk_set_self]
    · rw [if_neg hut, getNode_mk_set_ne _ _ _ _ (fun h => hut h.symm)]

theorem mem_succs_add_edge (c : ControlFlowGraph) (f t u x : Nat) :
    x ∈ ((c.add_edge f t).getNode u).succs ↔
      x ∈ (c.getNode u).succs ∨ (u = f ∧ x = t) := by
  rw [getNode_add_edge_succs]
  by_cases huf : u = f
  · subst huf
    simp [mem_btInsert]
    tauto
  · simp [huf]

theorem mem_preds_add_edge (c : ControlFlowGraph) (f t u x : Nat) :
    x ∈ ((c.add_edge f t).getNode u).preds ↔
      x ∈ (c.getNode u).preds ∨ (u = t ∧ x = f) := by
  rw [getNode_add_edge_preds]
  by_cases hut : u = t
  · subst hut
    simp [mem_btInsert]
    tauto
  · simp [hut]

theorem fold_add_edge_succs (D : List Nat) (u0 : Nat) (acc : ControlFlowGraph) (u x : Nat) :
    x ∈ ((D.foldl (fun c d => c.add_edge u0 d) acc).getNode u).succs ↔
      x ∈ (acc.getNode u).succs ∨ (u = u0 ∧ x ∈ D) := by
  induction D generalizing acc with
  | nil => simp
  | cons d D' ih =>
    simp only [List.foldl_cons, ih, mem_succs_add_edge, List.mem_cons]
    tauto

theorem fold_add_edge_preds (D : List Nat) (u0 : Nat) (acc : ControlFlowGraph) (u x : Nat) :
    x ∈ ((D.foldl (fun c d => c.add_edge u0 d) acc).getNode u).preds ↔
      x ∈ (acc.getNode u).preds ∨ (x = u0 ∧ u ∈ D) := by
  induction D generalizing acc with
  | nil => simp
  | cons d D' ih =>
    simp only [List.foldl_cons, ih, mem_preds_add_edge, List.mem_cons]
    tauto

theorem fold_add_edge_exits (D : List Nat) (u0 : Nat) (acc : ControlFlowGraph) :
    (D.foldl (fun c d => c.add_edge u0 d) acc).exits = acc.exits := by
  induction D generalizing acc with
  | nil => rfl
  | cons d D' ih => simp only [List.foldl_cons, ih, add_edge_exits]

theorem analyze_insn_succs (c : ControlFlowGraph) (f : FuncView) (i u x : Nat) :
    x ∈ ((analyze_insn c f i).getNode u).succs ↔
      x ∈ (c.getNode u).succs ∨ (u = f.insnBlock i ∧ x ∈ f.branchDests i) := by
  unfold analyze_insn
  rw [fold_add_edge_succs]
  by_cases hr : f.isReturn i <;> simp [hr, ControlFlowGraph.getNode]

theorem analyze_insn_preds (c : ControlFlowGraph) (f : FuncView) (i u x : Nat) :
    x ∈ ((analyze_insn c f i).getNode u).preds ↔
      x ∈ (c.getNode u).preds ∨ (x = f.insnBlock i ∧ u ∈ f.branchDests i) := by
  unfold analyze_insn
  rw [fold_add_edge_preds]
  by_cases hr : f.isReturn i <;> simp [hr, ControlFlowGraph.getNode]

theorem analyze_insn_exits (c : ControlFlowGraph) (f : FuncView) (i : Nat) :
    (analyze_insn c f i).exits =
      if f.isReturn i then c.exits ++ [f.insnBlock i] else c.exits := by
  unfold analyze_insn
  rw [fold_add_edge_exits]
  by_cases hr : f.isReturn i <;> simp [hr]

theorem char_merge {P : Prop} {u b0 : Nat} {L' : List Nat} (f : FuncView) {i0 : Nat}
    (C : Nat → Prop) (hlast : f.lastInsn b0 = some i0) :
    ((P ∨ (u = b0 ∧ C i0)) ∨ (u ∈ L' ∧ ∃ i, f.lastInsn u = some i ∧ C i)) ↔
      (P ∨ (u ∈ b0 :: L' ∧ ∃ i, f.lastInsn u = some i ∧ C i)) := by
  constructor
  · rintro ((hp | ⟨rfl, hc⟩) | ⟨hu, i, hi, hc⟩)
    · exact Or.inl hp
    · exact Or.inr ⟨List.mem_cons_self _ _, i0, hlast, hc⟩
    · exact Or.inr ⟨List.mem_cons_of_mem _ hu, i, hi, hc⟩
  · rintro (hp | ⟨hu, i, hi, hc⟩)
    · exact Or.inl (Or.inl hp)
    · rcases List.mem_cons.mp hu with rfl | hu'
      · rw [hlast] at hi
        cases hi
        exact Or.inl (Or.inr ⟨rfl, hc⟩)
      · exact Or.inr ⟨hu', i, hi, hc⟩

theorem char_merge_none {P : Prop} {u b0 : Nat} {L' : List Nat} (f : FuncView)
    (C : Nat → Prop) (hlast : f.lastInsn b0 = none) :
    (P ∨ (u ∈ L' ∧ ∃ i, f.lastInsn u = some i ∧ C i)) ↔
      (P ∨ (u ∈ b0 :: L' ∧ ∃ i, f.lastInsn u = some i ∧ C i)) := by
  constructor
  · rintro (hp | ⟨hu, i, hi, hc⟩)
    · exact Or.inl hp
    · exact Or.inr ⟨List.mem_cons_of_mem _ hu, i, hi, hc⟩
  · rintro (hp | ⟨hu, i, hi, hc⟩)
    · exact Or.inl hp
    · rcases List.mem_cons.mp hu with rfl | hu'
      · rw [hlast] at hi
        exact Option.noConfusion hi
      · exact Or.inr ⟨hu', i, hi, hc⟩

/-- Characterization of the edge and exit sets accumulated by the
`compute` fold over a list of layout blocks. -/
theorem compute_fold_char (f : FuncView) (L : List Nat) (acc : ControlFlowGraph)
    (hL : ∀ b ∈ L, ∀ i, f.lastInsn b = some i → f.insnBlock i = b) :
    (∀ u v, v ∈ ((L.foldl (fun a block =>
        match f.lastInsn block with
        | some insn => analyze_insn a f insn
        | none => a) acc).getNode u).succs ↔
      v ∈ (acc.getNode u).succs ∨ (u ∈ L ∧ ∃ i, f.lastInsn u = some i ∧ v ∈ f.branchDests i))
    ∧ (∀ u v, u ∈ ((L.foldl (fun a block =>
        match f.lastInsn block with
        | some insn => analyze_insn a f insn
        | none => a) acc).getNode v).preds ↔
      u ∈ (acc.getNode v).preds ∨ (u ∈ L ∧ ∃ i, f.lastInsn u = some i ∧ v ∈ f.branchDests i))
    ∧ (∀ b, b ∈ (L.foldl (fun a block =>
        match f.lastInsn block with
        | some insn => analyze_insn a f insn
        | none => a) acc).exits ↔
      b ∈ acc.exits ∨ (b ∈ L ∧ ∃ i, f.lastInsn b = some i ∧ f.isReturn i = true)) := by
  induction L generalizing acc with
  | nil => simp
  | cons b0 L' ih =>
    have hb0 := hL b0 (List.mem_cons_self _ _)
    have hL' : ∀ b ∈ L', ∀ i, f.lastInsn b = some i → f.insnBlock i = b :=
      fun b hb => hL b (List.mem_cons_of_mem _ hb)
    cases hlast : f.lastInsn b0 with
    | none =>
      obtain ⟨ihs, ihp, ihx⟩ := ih acc hL'
      refine ⟨fun u v => ?_, fun u v => ?_, fun b => ?_⟩
      · rw [List.foldl_cons, hlast]
        rw [ihs u v]
        exact char_merge_none f (fun i => v ∈ f.branchDests i) hlast
      · rw [List.foldl_cons, hlast]
        rw [ihp u v]
        exact char_merge_none f (fun i => v ∈ f.branchDests i) hlast
      · rw [List.foldl_cons, hlast]
        rw [ihx b]
        exact char_merge_none f (fun i => f.isReturn i = true) hlast
    | some i0 =>
      have hbi : f.insnBlock i0 = b0 := hb0 i0 hlast
      obtain ⟨ihs, ihp, ihx⟩ := ih (analyze_insn acc f i0) hL'
      refine ⟨fun u v => ?_, fun u v => ?_, fun b => ?_⟩
      · rw [List.foldl_cons, hlast]
        rw [ihs u v, analyze_insn_succs, hbi]
        exact char_merge f (fun i => v ∈ f.branchDests i) hlast
      · rw [List.foldl_cons, hlast]
        rw [ihp u v, analyze_insn_preds, hbi]
        exact char_merge f (fun i => v ∈ f.branchDests i) hlast
      · rw [List.foldl_cons, hlast]
        rw [ihx b, analyze_insn_exits, hbi]
        have hmerge := @char_merge (b ∈ acc.exits) b b0 L' f i0
          (fun i => f.isReturn i = true) hlast
        rw [← hmerge]
        by_cases hr : f.isReturn i0 = true
        · rw [if_pos hr]
          constructor
          · rintro (hmem | hrest)
            · rcases List.mem_append.mp hmem with hacc | hb0'
              · exact Or.inl (Or.inl hacc)
              · exact Or.inl (Or.inr ⟨List.mem_singleton.mp hb0', hr⟩)
            · exact Or.inr hrest
          · rintro ((hacc | ⟨hbb, _⟩) | hrest)
            · exact Or.inl (List.mem_append.mpr (Or.inl hacc))
            · exact Or.inl (List.mem_append.mpr (Or.inr (List.mem_singleton.mpr hbb)))
            · exact Or.inr hrest
        · rw [if_neg hr]
          constructor
          · rintro (hacc | hrest)
            · exact Or.inl (Or.inl hacc)
            · exact Or.inr hrest
          · rintro ((hacc | ⟨hbb, hc⟩) | hrest)
            · exact Or.inl hacc
            · exact absurd hc hr
            · exact Or.inr hrest

/-- C2: correctness of `ControlFlowGraph::compute`.  Under the layout
consistency invariant (`insn_block` of a block's last instruction is
that block, spec section 4.F), every successor edge `(u, v)` of the
computed CFG comes from a branch destination of `u`'s last instruction;
the stored predecessor and successor directions agree; and a block is
recorded in `exits` iff it is a layout block whose last instruction is
a return. -/
theorem c2_cfg_compute (c : ControlFlowGraph) (f : FuncView)
    (hconsist : ∀ b ∈ f.layoutBlocks, ∀ i, f.lastInsn b = some i → f.insnBlock i = b) :
    (∀ u v, v ∈ ((c.compute f).getNode u).succs →
       ∃ i, f.lastInsn u = some i ∧ v ∈ f.branchDests i)
    ∧ (∀ u v, u ∈ ((c.compute f).getNode v).preds ↔ v ∈ ((c.compute f).getNode u).succs)
    ∧ (∀ b, b ∈ (c.compute f).exits ↔
        b ∈ f.layoutBlocks ∧ ∃ i, f.lastInsn b = some i ∧ f.isReturn i = true) := by
  obtain ⟨hs, hp, hx⟩ := compute_fold_char f f.layoutBlocks
    (ControlFlowGraph.mk f.entry_block [] []) hconsist
  have hempty : ∀ u, (ControlFlowGraph.mk f.entry_block ([] : List (Nat × BlockNode))
      ([] : List Nat)).getNode u = emptyNode := fun u => rfl
  refine ⟨?_, ?_, ?_⟩
  · intro u v h
    rcases (hs u v).mp h with habs | ⟨_, i, hi, hv⟩
    · rw [hempty u] at habs
      simp [emptyNode] at habs
    · exact ⟨i, hi, hv⟩
  · intro u v
    constructor
    · intro h
      rcases (hp u v).mp h with habs | hcond
      · rw [hempty v] at habs
        simp [emptyNode] at habs
      · exact (hs u v).mpr (Or.inr hcond)
    · intro h
      rcases (hs u v).mp h with habs | hcond
      · rw [hempty u] at habs
        simp [emptyNode] at habs
      · exact (hp u v).mpr (Or.inr hcond)
  · intro b
    constructor
    · intro h
      rcases (hx b).mp h with habs | hcond
      · simp at habs
      · exact hcond
    · intro h
      exact (hx b).mpr (Or.inr h)

theorem c2_cfg_compute_witness :
    (∀ b ∈ fEx.layoutBlocks, ∀ i, fEx.lastInsn b = some i → fEx.insnBlock i = b)
    ∧ ((∀ u v, v ∈ ((ControlFlowGraph.new.compute fEx).getNode u).succs →
          ∃ i, fEx.lastInsn u = some i ∧ v ∈ fEx.branchDests i)
      ∧ (∀ u v, u ∈ ((ControlFlowGraph.new.compute fEx).getNode v).preds ↔
          v ∈ ((ControlFlowGraph.new.compute fEx).getNode u).succs)
      ∧ (∀ b, b ∈ (ControlFlowGraph.new.compute fEx).exits ↔
          b ∈ fEx.layoutBlocks ∧ ∃ i, fEx.lastInsn b = some i ∧ fEx.isReturn i = true)) := by
  have hcons : ∀ b ∈ fEx.layoutBlocks, ∀ i, fEx.lastInsn b = some i → fEx.insnBlock i = b := by
    intro b hb i hi
    fin_cases hb <;> (simp_all [fEx]; try omega)
  exact ⟨hcons, c2_cfg_compute ControlFlowGraph.new fEx hcons⟩

/-! ## Post-order traversal lemmas -/

theorem pushSuccs_eq (ns : Nat → Nat) (succs : List Nat) :
    ∀ st, pushSuccs ns succs st = (succs.filter (fun v => ns v == 0)).reverse ++ st := by
  induction succs with
  | nil => intro st; rfl
  | cons x rest ih =>
    intro st
    by_cases hx : ns x = 0
    · have hstep : pushSuccs ns (x :: rest) st = pushSuccs ns rest (x :: st) := by
        simp [pushSuccs, hx]
      rw [hstep, ih]
      simp [List.filter_cons, hx]
    · have hstep : pushSuccs ns (x :: rest) st = pushSuccs ns rest st := by
        simp [pushSuccs, hx]
      rw [hstep, ih]
      simp [List.filter_cons, hx]

theorem mem_foldr_succs {bs : List (Nat × BlockNode)} {k : Nat} {n : BlockNode}
    (h : (k, n) ∈ bs) :
    ∀ v ∈ n.succs, v ∈ bs.foldr (fun p acc => p.2.succs ++ acc) [] := by
  induction bs with
  | nil => cases h
  | cons p rest ih =>
    intro v hv
    rcases List.mem_cons.mp h with heq | hmem
    · subst heq
      exact List.mem_append.mpr (Or.inl hv)
    · exact List.mem_append.mpr (Or.inr (ih hmem v hv))

theorem mem_univ_of_succ {c : ControlFlowGraph} {b v : Nat} (h : v ∈ succList c b) :
    v ∈ univList c := by
  unfold succList ControlFlowGraph.getNode at h
  cases hl : alookup c.blocks b with
  | none =>
    rw [hl] at h
    simp [emptyNode] at h
  | some n =>
    rw [hl] at h
    have hmem := alookup_mem hl
    have hv : v ∈ n.succs := by simpa using h
    have := mem_foldr_succs hmem v hv
    unfold univList allSuccsList
    exact List.mem_append.mpr (Or.inr this)

theorem listWeight_nil (c : ControlFlowGraph) : listWeight c [] = 0 := rfl

theorem listWeight_cons (c : ControlFlowGraph) (x : Nat) (l : List Nat) :
    listWeight c (x :: l) = weight c x + listWeight c l := by
  simp [listWeight]

theorem listWeight_filter_mono (c : ControlFlowGraph) (l : List Nat) (p q : Nat → Bool)
    (h : ∀ x, p x = true → q x = true) :
    listWeight c (l.filter p) ≤ listWeight c (l.filter q) := by
  induction l with
  | nil => exact le_refl _
  | cons x rest ih =>
    by_cases hp : p x = true
    · have hq := h x hp
      simp only [List.filter_cons, if_pos hp, if_pos hq, listWeight_cons]
      omega
    · simp only [List.filter_cons, if_neg hp]
      by_cases hq : q x = true
      · simp only [if_pos hq, listWeight_cons]
        omega
      · simp only [if_neg hq]
        exact ih

theorem updF_imp_zero (ns : Nat → Nat) (b k : Nat) (hk : k ≠ 0) :
    ∀ x, (updF ns b k x == 0) = true → (ns x == 0) = true := by
  intro x hx
  unfold updF at hx
  by_cases hxb : x = b
  · rw [if_pos hxb] at hx
    simp only [beq_iff_eq] at hx
    exact absurd hx hk
  · rw [if_neg hxb] at hx
    exact hx

theorem listWeight_filter_update (c : ControlFlowGraph) (l : List Nat) (ns : Nat → Nat)
    (b k : Nat) (hb : b ∈ l) (hb0 : ns b = 0) (hk : k ≠ 0) :
    listWeight c (l.filter (fun x => updF ns b k x == 0)) + weight c b
      ≤ listWeight c (l.filter (fun x => ns x == 0)) := by
  induction l with
  | nil => cases hb
  | cons y rest ih =>
    by_cases hyb : y = b
    · subst hyb
      have hpy : ((fun x => ns x == 0) y) = true := by
        simp [hb0]
      have hpy' : ((fun x => updF ns y k x == 0) y) = false := by
        simp [updF, hk]
      simp only [List.filter_cons, if_pos hpy, if_neg (hpy' ▸ Bool.false_ne_true),
        listWeight_cons]
      have hmono := listWeight_filter_mono c rest _ _ (updF_imp_zero ns y k hk)
      omega
    · have hbr : b ∈ rest := by
        rcases List.mem_cons.mp hb with heq | hmem
        · exact absurd heq.symm hyb
        · exact hmem
      have hsame : ((fun x => updF ns b k x == 0) y) = ((fun x => ns x == 0) y) := by
        simp [updF, hyb]
      by_cases hy : (ns y == 0) = true
      · simp only [List.filter_cons, hsame, if_pos hy, listWeight_cons]
        have := ih hbr
        omega
      · simp only [List.filter_cons, hsame, if_neg hy]
        exact ih hbr

theorem mu_visit_lt {c : ControlFlowGraph} {ns : Nat → Nat} {block : Nat} {rest : List Nat}
    (hblock : block ∈ univList c) (h0 : ns block = 0) :
    mu c ⟨updF ns block 1, pushSuccs (updF ns block 1) (succList c block) (block :: rest)⟩
      < mu c ⟨ns, block :: rest⟩ := by
  have hflen : ((succList c block).filter (fun v => updF ns block 1 v == 0)).length
      ≤ (succList c block).length := List.length_filter_le _ _
  have hupd := listWeight_filter_update c (univList c) ns block 1 hblock h0 (by omega)
  simp only [weight] at hupd
  simp only [mu, pushSuccs_eq, List.length_append, List.length_reverse, List.length_cons]
  omega

theorem mu_pop_yield {c : ControlFlowGraph} {ns : Nat → Nat} {block : Nat} {rest : List Nat}
    (h1 : ns block = 1) :
    mu c ⟨updF ns block 2, rest⟩ < mu c ⟨ns, block :: rest⟩ := by
  have hfil : (univList c).filter (fun x => updF ns block 2 x == 0)
      = (univList c).filter (fun x => ns x == 0) := by
    apply List.filter_congr
    intro x _
    unfold updF
    by_cases hxb : x = block
    · subst hxb
      rw [if_pos rfl, h1]
      rfl
    · rw [if_neg hxb]
  simp only [mu, hfil, List.length_cons]
  omega

theorem mu_pop_skip {c : ControlFlowGraph} {ns : Nat → Nat} {block : Nat} {rest : List Nat} :
    mu c ⟨ns, rest⟩ < mu c ⟨ns, block :: rest⟩ := by
  simp only [mu, List.length_cons]
  omega

theorem split_cases {P rest pre post : List Nat} {block b : Nat}
    (h : P ++ block :: rest = pre ++ b :: post) (hbP : b ∉ P) :
    (pre = P ∧ b = block ∧ post = rest) ∨
      (∃ p, pre = P ++ block :: p ∧ rest = p ++ b :: post) := by
  induction P generalizing pre with
  | nil =>
    cases pre with
    | nil =>
      simp only [List.nil_append] at h
      injection h with h1 h2
      subst h1
      subst h2
      exact Or.inl ⟨rfl, rfl, rfl⟩
    | cons x pre' =>
      simp only [List.nil_append, List.cons_append] at h
      injection h with h1 h2
      subst h1
      subst h2
      exact Or.inr ⟨pre', by simp, rfl⟩
  | cons y P' ih =>
    have hby : b ≠ y := fun hb => hbP (hb ▸ List.mem_cons_self _ _)
    have hbP' : b ∉ P' := fun hb => hbP (List.mem_cons_of_mem _ hb)
    cases pre with
    | nil =>
      simp only [List.cons_append, List.nil_append] at h
      injection h with h1 h2
      exact absurd h1.symm hby
    | cons x pre' =>
      simp only [List.cons_append] at h
      injection h with h1 h2
      rcases ih h2 hbP' with ⟨hp1, hp2, hp3⟩ | ⟨p, hp1, hp2⟩
      · refine Or.inl ⟨?_, hp2, hp3⟩
        rw [hp1, h1]
      · refine Or.inr ⟨p, ?_, hp2⟩
        rw [hp1, h1, List.cons_append]

theorem mem_first_split {a : Nat} {l : List Nat} (h : a ∈ l) :
    ∃ p q, l = p ++ a :: q ∧ a ∉ p := by
  induction l with
  | nil => cases h
  | cons x rest ih =>
    by_cases hax : a = x
    · subst hax
      exact ⟨[], rest, rfl, List.not_mem_nil _⟩
    · have hr : a ∈ rest := (List.mem_cons.mp h).resolve_left hax
      obtain ⟨p, q, hpq, hnp⟩ := ih hr
      exact ⟨x :: p, q, by rw [hpq, List.cons_append], by simp [hax, hnp]⟩

theorem updF_self (ns : Nat → Nat) (b v : Nat) : updF ns b v b = v := by
  simp [updF]

theorem updF_ne (ns : Nat → Nat) (b v : Nat) {x : Nat} (h : x ≠ b) : updF ns b v x = ns x := by
  simp [updF, h]

theorem inv_skip {c : ControlFlowGraph} {e : Nat} {ns : Nat → Nat} {block : Nat}
    {rest : List Nat} (hInv : PoInv c e ns (block :: rest)) (h2 : ns block = 2) :
    PoInv c e ns rest where
  stackUniv := fun b hb => hInv.stackUniv b (List.mem_cons_of_mem _ hb)
  bound := hInv.bound
  visStack := by
    intro b hb1
    have hbb : b ≠ block := fun h => by rw [h, h2] at hb1; cases hb1
    have := hInv.visStack b hb1
    exact (List.mem_cons.mp this).resolve_left hbb
  finSuccs := hInv.finSuccs
  stackSuccs := by
    intro pre b post hsplit hb0 v hv
    have hsplit' : block :: rest = (block :: pre) ++ b :: post := by
      rw [hsplit, List.cons_append]
    rcases hInv.stackSuccs (block :: pre) b post hsplit' hb0 v hv with hne | hin
    · exact Or.inl hne
    · rcases List.mem_cons.mp hin with heq | hp
      · rw [heq]
        exact Or.inl (by rw [h2]; omega)
      · exact Or.inr hp
  stackReach := by
    intro pre b post hsplit hb1 hbpre a ha
    have hbb : b ≠ block := fun h => by rw [h, h2] at hb1; cases hb1
    have hsplit' : block :: rest = (block :: pre) ++ b :: post := by
      rw [hsplit, List.cons_append]
    have hbpre' : b ∉ block :: pre := by
      intro hmem
      rcases List.mem_cons.mp hmem with heq | hp
      · exact hbb heq
      · exact hbpre hp
    exact hInv.stackReach (block :: pre) b post hsplit' hb1 hbpre' a
      (List.mem_cons_of_mem _ ha)
  entReach := fun b hb => hInv.entReach b (List.mem_cons_of_mem _ hb)
  visReach := hInv.visReach

theorem inv_yield {c : ControlFlowGraph} {e : Nat} {ns : Nat → Nat} {block : Nat}
    {rest : List Nat} (hInv : PoInv c e ns (block :: rest)) (h1 : ns block = 1) :
    PoInv c e (updF ns block 2) rest where
  stackUniv := fun b hb => hInv.stackUniv b (List.mem_cons_of_mem _ hb)
  bound := by
    intro b
    by_cases hb : b = block
    · rw [hb, updF_self]
    · rw [updF_ne _ _ _ hb]
      exact hInv.bound b
  visStack := by
    intro b hb1
    by_cases hb : b = block
    · rw [hb, updF_self] at hb1
      cases hb1
    · rw [updF_ne _ _ _ hb] at hb1
      exact (List.mem_cons.mp (hInv.visStack b hb1)).resolve_left hb
  finSuccs := by
    intro b hb2 v hv
    have hvne : ns v ≠ 0 → updF ns block 2 v ≠ 0 := by
      intro hv0
      by_cases hvb : v = block
      · rw [hvb, updF_self]
        omega
      · rw [updF_ne _ _ _ hvb]
        exact hv0
    by_cases hb : b = block
    · subst hb
      have hsplit : b :: rest = ([] : List Nat) ++ b :: rest := rfl
      rcases hInv.stackSuccs [] b rest hsplit (by omega) v hv with hne | hin
      · exact hvne hne
      · cases hin
    · rw [updF_ne _ _ _ hb] at hb2
      exact hvne (hInv.finSuccs b hb2 v hv)
  stackSuccs := by
    intro pre b post hsplit hb0 v hv
    have hsplit' : block :: rest = (block :: pre) ++ b :: post := by
      rw [hsplit, List.cons_append]
    have hb0' : ns b ≠ 0 := by
      by_cases hb : b = block
      · rw [hb, h1]
        omega
      · rwa [updF_ne _ _ _ hb] at hb0
    rcases hInv.stackSuccs (block :: pre) b post hsplit' hb0' v hv with hne | hin
    · refine Or.inl ?_
      by_cases hvb : v = block
      · rw [hvb, updF_self]
        omega
      · rwa [updF_ne _ _ _ hvb]
    · rcases List.mem_cons.mp hin with heq | hp
      · refine Or.inl ?_
        rw [heq, updF_self]
        omega
      · exact Or.inr hp
  stackReach := by
    intro pre b post hsplit hb1 hbpre a ha
    by_cases hb : b = block
    · rw [hb, updF_self] at hb1
      cases hb1
    · rw [updF_ne _ _ _ hb] at hb1
      have hsplit' : block :: rest = (block :: pre) ++ b :: post := by
        rw [hsplit, List.cons_append]
      have hbpre' : b ∉ block :: pre := by
        intro hmem
        rcases List.mem_cons.mp hmem with heq | hp
        · exact hb heq
        · exact hbpre hp
      exact hInv.stackReach (block :: pre) b post hsplit' hb1 hbpre' a
        (List.mem_cons_of_mem _ ha)
  entReach := fun b hb => hInv.entReach b (List.mem_cons_of_mem _ hb)
  visReach := by
    intro b hb0
    by_cases hb : b = block
    · rw [hb]
      exact hInv.visReach block (by omega)
    · rw [updF_ne _ _ _ hb] at hb0
      exact hInv.visReach b hb0

theorem mem_FR {c : ControlFlowGraph} {ns : Nat → Nat} {block x : Nat} :
    x ∈ ((succList c block).filter (fun v => ns v == 0)).reverse ↔
      (x ∈ succList c block ∧ ns x = 0) := by
  rw [List.mem_reverse, List.mem_filter]
  simp

theorem inv_visit {c : ControlFlowGraph} {e : Nat} {ns : Nat → Nat} {block : Nat}
    {rest : List Nat} (hInv : PoInv c e ns (block :: rest)) (h0 : ns block = 0) :
    PoInv c e (updF ns block 1)
      (((succList c block).filter (fun v => updF ns block 1 v == 0)).reverse
        ++ block :: rest) where
  stackUniv := by
    intro b hb
    rcases List.mem_append.mp hb with hF | hold
    · exact mem_univ_of_succ (mem_FR.mp hF).1
    · exact hInv.stackUniv b hold
  bound := by
    intro b
    by_cases hb : b = block
    · rw [hb, updF_self]
      omega
    · rw [updF_ne _ _ _ hb]
      exact hInv.bound b
  visStack := by
    intro b hb1
    by_cases hb : b = block
    · exact List.mem_append.mpr (Or.inr (hb ▸ List.mem_cons_self _ _))
    · rw [updF_ne _ _ _ hb] at hb1
      exact List.mem_append.mpr (Or.inr (hInv.visStack b hb1))
  finSuccs := by
    intro b hb2 v hv
    have hbb : b ≠ block := by
      intro h
      rw [h, updF_self] at hb2
      cases hb2
    rw [updF_ne _ _ _ hbb] at hb2
    have := hInv.finSuccs b hb2 v hv
    by_cases hvb : v = block
    · rw [hvb, updF_self]
      omega
    · rw [updF_ne _ _ _ hvb]
      exact this
  stackSuccs := by
    intro pre b post hsplit hb0' v hv
    have hbFR : b ∉ ((succList c block).filter
        (fun v => updF ns block 1 v == 0)).reverse := by
      intro hm
      exact hb0' (mem_FR.mp hm).2
    rcases split_cases hsplit hbFR with ⟨hpre, hbblk, _⟩ | ⟨p, hpre, hrest⟩
    · subst hbblk
      by_cases hv0 : updF ns b 1 v = 0
      · refine Or.inr ?_
        rw [hpre]
        exact mem_FR.mpr ⟨hv, hv0⟩
      · exact Or.inl hv0
    · by_cases hbblk : b = block
      · subst hbblk
        by_cases hv0 : updF ns b 1 v = 0
        · refine Or.inr ?_
          rw [hpre]
          exact List.mem_append.mpr (Or.inl (mem_FR.mpr ⟨hv, hv0⟩))
        · exact Or.inl hv0
      · have hb0 : ns b ≠ 0 := by rwa [updF_ne _ _ _ hbblk] at hb0'
        have hsplit' : block :: rest = (block :: p) ++ b :: post := by
          rw [hrest, List.cons_append]
        rcases hInv.stackSuccs (block :: p) b post hsplit' hb0 v hv with hne | hin
        · refine Or.inl ?_
          by_cases hvb : v = block
          · rw [hvb, updF_self]
            omega
          · rw [updF_ne _ _ _ hvb]
            exact hne
        · refine Or.inr ?_
          rw [hpre]
          exact List.mem_append.mpr (Or.inr hin)
  stackReach := by
    intro pre b post hsplit hb1' hbpre a ha
    have hbFR : b ∉ ((succList c block).filter
        (fun v => updF ns block 1 v == 0)).reverse := by
      intro hm
      have := (mem_FR.mp hm).2
      rw [hb1'] at this
      cases this
    rcases split_cases hsplit hbFR with ⟨hpre, hbblk, _⟩ | ⟨p, hpre, hrest⟩
    · subst hbblk
      rw [hpre] at ha
      exact Relation.ReflTransGen.single (mem_FR.mp ha).1
    · by_cases hbblk : b = block
      · exfalso
        apply hbpre
        rw [hpre]
        exact List.mem_append.mpr (Or.inr (hbblk ▸ List.mem_cons_self _ _))
      · have hb1 : ns b = 1 := by rwa [updF_ne _ _ _ hbblk] at hb1'
        have hbp : b ∉ p := by
          intro hp
          apply hbpre
          rw [hpre]
          exact List.mem_append.mpr (Or.inr (List.mem_cons_of_mem _ hp))
        have hbbp : b ∉ block :: p := by
          intro hm
          rcases List.mem_cons.mp hm with heq | hp
          · exact hbblk heq
          · exact hbp hp
        have hsplit' : block :: rest = (block :: p) ++ b :: post := by
          rw [hrest, List.cons_append]
        have hR := hInv.stackReach (block :: p) b post hsplit' hb1 hbbp
        have hRblock : Reach c b block := hR block (List.mem_cons_self _ _)
        rw [hpre] at ha
        rcases List.mem_append.mp ha with haF | haBP
        · exact Relation.ReflTransGen.tail hRblock (mem_FR.mp haF).1
        · exact hR a haBP
  entReach := by
    intro b hb
    rcases List.mem_append.mp hb with hF | hold
    · exact Relation.ReflTransGen.tail (hInv.entReach block (List.mem_cons_self _ _))
        (mem_FR.mp hF).1
    · exact hInv.entReach b hold
  visReach := by
    intro b hb0'
    by_cases hb : b = block
    · rw [hb]
      exact hInv.entReach block (List.mem_cons_self _ _)
    · rw [updF_ne _ _ _ hb] at hb0'
      exact hInv.visReach b hb0'

theorem mu_def (c : ControlFlowGraph) (ns : Nat → Nat) (stk : List Nat) :
    mu c ⟨ns, stk⟩
      = stk.length + listWeight c ((univList c).filter (fun b => ns b == 0)) := rfl

/-- The run lemma: from any invariant state, enough fuel empties the
stack, and the collected output is exactly the set of newly finished
blocks, without duplicates and ordered compatibly with the successor
relation up to back edges. -/
theorem po_master (c : ControlFlowGraph) (e : Nat) :
    ∀ (fuel : Nat) (ns : Nat → Nat) (stk : List Nat),
      PoInv c e ns stk → mu c ⟨ns, stk⟩ ≤ fuel →
      MasterOut c e ns stk (poRunAux c fuel ⟨ns, stk⟩).1 (poRunAux c fuel ⟨ns, stk⟩).2 := by
  intro fuel
  induction fuel with
  | zero =>
    intro ns stk hInv hmu
    rw [mu_def] at hmu
    have hstk : stk = [] := List.length_eq_zero.mp (by omega)
    subst hstk
    exact ⟨⟨rfl, hInv⟩, fun b => le_refl _, fun b hb => absurd hb (List.not_mem_nil _),
      fun b => ⟨fun h => absurd h (List.not_mem_nil _), fun h => absurd h.1 h.2⟩,
      List.nodup_nil, fun u v _ hu => absurd hu (List.not_mem_nil _)⟩
  | succ fuel ih =>
    intro ns stk hInv hmu
    cases stk with
    | nil =>
      have hrun : poRunAux c (fuel + 1) ⟨ns, []⟩ = ([], ⟨ns, []⟩) := by
        simp [poRunAux, poStep]
      rw [hrun]
      exact ⟨⟨rfl, hInv⟩, fun b => le_refl _, fun b hb => absurd hb (List.not_mem_nil _),
        fun b => ⟨fun h => absurd h (List.not_mem_nil _), fun h => absurd h.1 h.2⟩,
        List.nodup_nil, fun u v _ hu => absurd hu (List.not_mem_nil _)⟩
    | cons block rest =>
      by_cases h0 : ns block = 0
      · -- visit: mark the top block and push its unvisited successors
        have hrun : poRunAux c (fuel + 1) ⟨ns, block :: rest⟩
            = poRunAux c fuel ⟨updF ns block 1,
                pushSuccs (updF ns block 1) (succList c block) (block :: rest)⟩ := by
          simp [poRunAux, poStep, h0]
        have hmu1 : mu c ⟨updF ns block 1,
            pushSuccs (updF ns block 1) (succList c block) (block :: rest)⟩ ≤ fuel := by
          have hlt := @mu_visit_lt c ns block rest
            (hInv.stackUniv block (List.mem_cons_self _ _)) h0
          omega
        have hInv1 : PoInv c e (updF ns block 1)
            (pushSuccs (updF ns block 1) (succList c block) (block :: rest)) := by
          rw [pushSuccs_eq]
          exact inv_visit hInv h0
        obtain ⟨⟨hst, hinvf⟩, hmono, hdone, hmem, hnd, hord⟩ := ih _ _ hInv1 hmu1
        rw [hrun]
        refine ⟨⟨hst, hinvf⟩, ?_, ?_, ?_, hnd, hord⟩
        · intro b
          refine le_trans ?_ (hmono b)
          by_cases hb : b = block
          · rw [hb, updF_self, h0]
            omega
          · rw [updF_ne _ _ _ hb]
        · intro b hb
          refine hdone b ?_
          rw [pushSuccs_eq]
          exact List.mem_append.mpr (Or.inr hb)
        · intro b
          rw [hmem b]
          constructor
          · rintro ⟨ht2, hne⟩
            refine ⟨ht2, ?_⟩
            by_cases hb : b = block
            · rw [hb, h0]
              omega
            · rwa [updF_ne _ _ _ hb] at hne
          · rintro ⟨ht2, hne⟩
            refine ⟨ht2, ?_⟩
            by_cases hb : b = block
            · rw [hb, updF_self]
              omega
            · rwa [updF_ne _ _ _ hb]
      · by_cases h2 : ns block = 2
        · -- skip: pop an already finished block, no yield
          have hrun : poRunAux c (fuel + 1) ⟨ns, block :: rest⟩
              = poRunAux c fuel ⟨ns, rest⟩ := by
            simp [poRunAux, poStep, h0, h2]
          have hmu1 : mu c ⟨ns, rest⟩ ≤ fuel := by
            have := @mu_pop_skip c ns block rest
            omega
          obtain ⟨⟨hst, hinvf⟩, hmono, hdone, hmem, hnd, hord⟩ :=
            ih _ _ (inv_skip hInv h2) hmu1
          rw [hrun]
          refine ⟨⟨hst, hinvf⟩, hmono, ?_, hmem, hnd, hord⟩
          intro b hb
          rcases List.mem_cons.mp hb with heq | hr
          · have hle := hmono b
            have hbd := hinvf.bound b
            rw [heq] at hle ⊢
            rw [heq] at hbd
            omega
          · exact hdone b hr
        · -- yield: pop the visited top block, mark finished, emit it
          have h1 : ns block = 1 := by
            have := hInv.bound block
            omega
          have hrun1 : (poRunAux c (fuel + 1) ⟨ns, block :: rest⟩).1
              = block :: (poRunAux c fuel ⟨updF ns block 2, rest⟩).1 := by
            simp [poRunAux, poStep, h0, h2]
          have hrun2 : (poRunAux c (fuel + 1) ⟨ns, block :: rest⟩).2
              = (poRunAux c fuel ⟨updF ns block 2, rest⟩).2 := by
            simp [poRunAux, poStep, h0, h2]
          have hmu1 : mu c ⟨updF ns block 2, rest⟩ ≤ fuel := by
            have := @mu_pop_yield c ns block rest h1
            omega
          obtain ⟨⟨hst, hinvf⟩, hmono, hdone, hmem, hnd, hord⟩ :=
            ih _ _ (inv_yield hInv h1) hmu1
          rw [hrun1, hrun2]
          have hblock2 : (poRunAux c fuel ⟨updF ns block 2, rest⟩).2.nodeState block = 2 := by
            have hle := hmono block
            rw [updF_self] at hle
            have hbd := hinvf.bound block
            omega
          have hnotout1 : block ∉ (poRunAux c fuel ⟨updF ns block 2, rest⟩).1 := by
            intro hmem1
            have := (hmem block).mp hmem1
            rw [updF_self] at this
            exact this.2 rfl
          refine ⟨⟨hst, hinvf⟩, ?_, ?_, ?_, ?_, ?_⟩
          · intro b
            refine le_trans ?_ (hmono b)
            by_cases hb : b = block
            · rw [hb, updF_self, h1]
              omega
            · rw [updF_ne _ _ _ hb]
          · intro b hb
            rcases List.mem_cons.mp hb with heq | hrt
            · rw [heq]
              exact hblock2
            · exact hdone b hrt
          · intro b
            constructor
            · intro hb
              rcases List.mem_cons.mp hb with heq | hb1
              · rw [heq]
                exact ⟨hblock2, by rw [h1]; omega⟩
              · obtain ⟨ht2, hne⟩ := (hmem b).mp hb1
                refine ⟨ht2, ?_⟩
                have hbb : b ≠ block := by
                  intro hbe
                  rw [hbe, updF_self] at hne
                  exact hne rfl
                rwa [updF_ne _ _ _ hbb] at hne
            · rintro ⟨ht2, hne⟩
              by_cases hb : b = block
              · rw [hb]
                exact List.mem_cons_self _ _
              · refine List.mem_cons_of_mem _ ((hmem b).mpr ⟨ht2, ?_⟩)
                rwa [updF_ne _ _ _ hb]
          · exact List.nodup_cons.mpr ⟨hnotout1, hnd⟩
          · intro u v hsucc hu hv hlt
            by_cases hub : u = block
            · subst hub
              have hvne : v ≠ u := by
                intro hveq
                rw [hveq] at hlt
                exact lt_irrefl _ hlt
              have hvout1 : v ∈ (poRunAux c fuel ⟨updF ns u 2, rest⟩).1 := by
                rcases List.mem_cons.mp hv with heq | h
                · exact absurd heq hvne
                · exact h
              have hv2 := (hmem v).mp hvout1
              have hnsv2 : ns v ≠ 2 := by
                have := hv2.2
                rwa [updF_ne _ _ _ hvne] at this
              have hsplit0 : u :: rest = ([] : List Nat) ++ u :: rest := rfl
              have hKv := hInv.stackSuccs [] u rest hsplit0 (by omega) v hsucc
              have hnsv0 : ns v ≠ 0 := by
                rcases hKv with h | h
                · exact h
                · exact absurd h (List.not_mem_nil _)
              have hnsv1 : ns v = 1 := by
                have := hInv.bound v
                omega
              have hvstk : v ∈ u :: rest := hInv.visStack v hnsv1
              have hvrest : v ∈ rest := (List.mem_cons.mp hvstk).resolve_left hvne
              obtain ⟨p, q, hrest_eq, hvnp⟩ := mem_first_split hvrest
              have hsplit' : u :: rest = (u :: p) ++ v :: q := by
                rw [hrest_eq, List.cons_append]
              have hvnbp : v ∉ u :: p := by
                intro hm
                rcases List.mem_cons.mp hm with heq | hp
                · exact hvne heq
                · exact hvnp hp
              exact hInv.stackReach (u :: p) v q hsplit' hnsv1 hvnbp u
                (List.mem_cons_self _ _)
            · have huout1 : u ∈ (poRunAux c fuel ⟨updF ns block 2, rest⟩).1 :=
                (List.mem_cons.mp hu).resolve_left hub
              have hvb : v ≠ block := by
                intro hveq
                rw [hveq, List.indexOf_cons_self] at hlt
                exact Nat.not_lt_zero _ hlt
              have hvout1 : v ∈ (poRunAux c fuel ⟨updF ns block 2, rest⟩).1 :=
                (List.mem_cons.mp hv).resolve_left hvb
              have hiu := List.indexOf_cons_ne
                ((poRunAux c fuel ⟨updF ns block 2, rest⟩).1) (fun h => hub h.symm)
              have hiv := List.indexOf_cons_ne
                ((poRunAux c fuel ⟨updF ns block 2, rest⟩).1) (fun h => hvb h.symm)
              rw [hiu, hiv] at hlt
              exact hord u v hsucc huout1 hvout1 (by omega)

/-- C3 (amended): post-order traversal.  For a CFG with entry `e`,
`post_order` yields a block iff it is reachable from the entry along
successor edges, yields each such block exactly once (`Nodup`), and a
successor `v` of a yielded block `u` can be yielded after `u` only when
`v` reaches `u` back through successor edges (a back edge); in
particular in an acyclic region every successor is yielded before its
predecessor.  The original claim's unconditional ordering part fails on
cycles (`c3_post_order_cycle_cex`). -/
theorem c3_post_order (c : ControlFlowGraph) (e : Nat) (he : c.entry = some e) :
    (∀ b, b ∈ c.post_order ↔ Reach c e b)
    ∧ c.post_order.Nodup
    ∧ (∀ u v, v ∈ succList c u → yieldedBefore c.post_order u v → Reach c v u) := by
  have hinit : poInit c = ⟨fun _ => 0, [e]⟩ := by
    unfold poInit
    rw [he]
  have hInv0 : PoInv c e (fun _ => 0) [e] :=
    { stackUniv := by
        intro b hb
        rw [List.mem_singleton] at hb
        subst hb
        unfold univList
        rw [he]
        exact List.mem_append.mpr (Or.inl (List.mem_singleton.mpr rfl))
      bound := fun _ => by omega
      visStack := fun _ hb => absurd hb (by omega)
      finSuccs := fun _ hb => absurd hb (by omega)
      stackSuccs := fun _ b _ _ hb0 => absurd rfl hb0
      stackReach := fun _ _ _ _ hb1 _ _ _ => absurd hb1 (by omega)
      entReach := by
        intro b hb
        rw [List.mem_singleton] at hb
        subst hb
        exact Relation.ReflTransGen.refl
      visReach := fun _ hb0 => absurd rfl hb0 }
  have hmu0 : mu c ⟨fun _ => 0, [e]⟩ ≤ poFuel c := by
    rw [mu_def]
    have hfil : (univList c).filter (fun b => (fun _ => (0 : Nat)) b == 0) = univList c :=
      List.filter_eq_self.mpr (fun a _ => rfl)
    rw [hfil]
    unfold poFuel
    simp
  obtain ⟨⟨hst, hinvf⟩, hmono, hdone, hmem, hnd, hord⟩ :=
    po_master c e (poFuel c) (fun _ => 0) [e] hInv0 hmu0
  have hpo : c.post_order = (poRunAux c (poFuel c) ⟨fun _ => 0, [e]⟩).1 := by
    unfold ControlFlowGraph.post_order
    rw [hinit]
  have hno1 : ∀ b, (poRunAux c (poFuel c) ⟨fun _ => 0, [e]⟩).2.nodeState b ≠ 1 := by
    intro b hb1
    have := hinvf.visStack b hb1
    rw [hst] at this
    exact absurd this (List.not_mem_nil _)
  have hent2 : (poRunAux c (poFuel c) ⟨fun _ => 0, [e]⟩).2.nodeState e = 2 :=
    hdone e (List.mem_singleton.mpr rfl)
  have hmem2 : ∀ b, b ∈ c.post_order ↔
      (poRunAux c (poFuel c) ⟨fun _ => 0, [e]⟩).2.nodeState b = 2 := by
    intro b
    rw [hpo, hmem b]
    exact ⟨fun h => h.1, fun h => ⟨h, fun hx => by simp at hx⟩⟩
  refine ⟨?_, ?_, ?_⟩
  · intro b
    rw [hmem2 b]
    constructor
    · intro h2
      exact hinvf.visReach b (by omega)
    · intro hreach
      induction hreach with
      | refl => exact hent2
      | tail hab hbc ihh =>
        rename_i x y
        have hfin := hinvf.finSuccs x ihh y hbc
        have hbd := hinvf.bound y
        have hn1 := hno1 y
        omega
  · rw [hpo]
    exact hnd
  · intro u v hsucc hbefore
    obtain ⟨hu, hv, hlt⟩ := hbefore
    rw [hpo] at hu hv hlt
    exact hord u v hsucc hu hv hlt

theorem c3_post_order_witness :
    cfgD.entry = some 0
    ∧ ((∀ b, b ∈ cfgD.post_order ↔ Reach cfgD 0 b)
       ∧ cfgD.post_order.Nodup
       ∧ (∀ u v, v ∈ succList cfgD u → yieldedBefore cfgD.post_order u v →
           Reach cfgD v u)) :=
  ⟨rfl, c3_post_order cfgD 0 rfl⟩

/-- C3, as stated, is false: on the cycle `0 → 1 → 0` the traversal
yields `[1, 0]`, so block 1 is yielded before its not-yet-yielded
successor 0.  This refutes "yields a block only after all of its
not-yet-yielded successors". -/
theorem c3_post_order_cycle_cex :
    ¬ (∀ u v, v ∈ succList cfgCyc u → u ∈ cfgCyc.post_order → v ∈ cfgCyc.post_order →
        (v = u ∨ yieldedBefore cfgCyc.post_order v u)) := by
  intro h
  have h1 := h 1 0 (by decide) (by decide) (by decide)
  rcases h1 with h1 | h1
  · exact absurd h1 (by decide)
  · refine absurd h1 ?_
    unfold yieldedBefore
    decide

end Sonatina
